import Mathlib

/-!
Shallow embedding of `include/distributable_counter.h`: a distributable
counter with per-owner brokers.  The C++ template parameter `Integral` is
modelled as an unsigned `w`-bit machine integer: values are natural numbers
kept in `[0, 2^w)` with explicit `% 2^w` wraparound on every arithmetic
operation, matching unsigned overflow semantics.

A `distributable_counter` holds an atomic residual `counter_` and an
intrusive list `brokers_` of registered `counter_broker`s.  Brokers are
identified here by a natural-number id; the registry is the ordered list of
`(id, value_)` pairs (`push_back` appends, `remove` deletes the node).
All claims concern sequential executions (no interleaving), so atomic
loads/stores/fetch-ops become plain state-passing functions.
-/

/-- Reduction of a value into the `w`-bit unsigned range, as performed by any
store into an `Integral` cell. -/
def wrap (w x : Nat) : Nat := x % 2 ^ w

/-- Unsigned `w`-bit addition `a + b` (wraps on overflow). -/
def wadd (w a b : Nat) : Nat := (a + b) % 2 ^ w

/-- Unsigned `w`-bit subtraction `a - b` (wraps below zero): computed in `Nat`
as `a + (2^w - b % 2^w)` reduced mod `2^w`, which agrees with two's-complement
unsigned subtraction. -/
def wsub (w a b : Nat) : Nat := (a + (2 ^ w - b % 2 ^ w)) % 2 ^ w

/-- State of one `distributable_counter<Integral>` together with every
`counter_broker` currently registered to it: `counter` is the field
`counter_` and `brokers` is the intrusive list `brokers_`, each node carrying
its id and its `value_` field. -/
structure CounterState where
  counter : Nat
  brokers : List (Nat × Nat)
deriving Repr, DecidableEq

/-- Constructor `distributable_counter(Integral initial)`: residual set to `initial`,
empty broker list. -/
def distributable_counter.init (w initial : Nat) : CounterState :=
  { counter := wrap w initial, brokers := [] }

/-- Method `distributable_counter::operator+=`: `counter_.fetch_add(amount, relaxed)`. -/
def distributable_counter.iadd (w amt : Nat) (s : CounterState) : CounterState :=
  { s with counter := wadd w s.counter amt }

/-- Method `distributable_counter::operator-=`: `counter_.fetch_sub(amount, relaxed)`. -/
def distributable_counter.isub (w amt : Nat) (s : CounterState) : CounterState :=
  { s with counter := wsub w s.counter amt }

/-- The loop body of `distributable_counter::load()`: walk the broker list,
accumulating `accumulator += broker.value_.load(relaxed)` (an `Integral`
addition, hence wrapping), and return the traversed list as read. -/
def loadScan (w : Nat) : List (Nat × Nat) → Nat → Nat × List (Nat × Nat)
  | [], acc => (acc, [])
  | b :: bs, acc =>
    let r := loadScan w bs (wadd w acc b.2)
    (r.1, b :: r.2)

/-- Method `distributable_counter::load()` as a state transformer: sums every
registered broker's `value_` under the mutex, then adds `counter_.load()`;
returns the result together with the state left behind by the reads. -/
def distributable_counter.loadSt (w : Nat) (s : CounterState) : Nat × CounterState :=
  let r := loadScan w s.brokers 0
  (wadd w r.1 s.counter, { counter := s.counter, brokers := r.2 })

/-- The value returned by `distributable_counter::load()`. -/
def distributable_counter.load (w : Nat) (s : CounterState) : Nat :=
  (distributable_counter.loadSt w s).1

/-- The loop body of `distributable_counter::exchange(to)`: walk the broker
list, accumulating `old_value += broker.value_.exchange(0, relaxed)`, leaving
every broker's `value_` at zero. -/
def exchScan (w : Nat) : List (Nat × Nat) → Nat → Nat × List (Nat × Nat)
  | [], acc => (acc, [])
  | b :: bs, acc =>
    let r := exchScan w bs (wadd w acc b.2)
    (r.1, (b.1, 0) :: r.2)

/-- Method `distributable_counter::exchange(to)`: drains every broker to zero under
the mutex, then `counter_.exchange(to, relaxed)`; returns the sum of drained
values plus the old residual, and the new state. -/
def distributable_counter.exchange (w tov : Nat) (s : CounterState) : Nat × CounterState :=
  let r := exchScan w s.brokers 0
  (wadd w r.1 s.counter, { counter := wrap w tov, brokers := r.2 })

/-- Destructor `~distributable_counter()`: `assert(brokers_.empty())`.  Destruction
succeeds (`some ()`) only when no broker is registered; otherwise the
assertion traps (`none`). -/
def distributable_counter.dtor (s : CounterState) : Option Unit :=
  if s.brokers.isEmpty then some () else none

/-- A `value_.load(relaxed)` of a broker cell (marker for the first half of
the "weak atomic" read-modify-write pair). -/
def atomic_load (v : Nat) : Nat := v

/-- The broker's `operator+=` on its `value_` cell: an atomic load followed by
a separate atomic store of `value_.load() + amount` (an `Integral` sum, hence
wrapped). -/
def weak_add (w v amt : Nat) : Nat := wadd w (atomic_load v) amt

/-- The broker's `operator-=` on its `value_` cell: an atomic load followed by
a separate atomic store of `value_.load() - amount` (unsigned, hence wrapped). -/
def weak_sub (w v amt : Nat) : Nat := wsub w (atomic_load v) amt

/-- A single indivisible `fetch_add` as the spec describes it:
`value' = (value + amount) mod 2^w`, computed over the integers. -/
def fetch_add_model (w v amt : Nat) : Nat :=
  (((v : Int) + (amt : Int)) % ((2 : Int) ^ w)).toNat

/-- A single indivisible `fetch_sub` as the spec describes it:
`value' = (value - amount) mod 2^w`, computed over the integers. -/
def fetch_sub_model (w v amt : Nat) : Nat :=
  (((v : Int) - (amt : Int)) % ((2 : Int) ^ w)).toNat

/-- Constructor `counter_broker::counter_broker(counter)`: `value_` starts at 0, then
`counter.brokers_.push_back(*this)` under the mutex. -/
def counter_broker.ctor (id : Nat) (s : CounterState) : CounterState :=
  { s with brokers := s.brokers ++ [(id, 0)] }

/-- The `value_` field of the registered broker `id` (`none` if `id` is not
in the registry). -/
def counter_broker.value (s : CounterState) (id : Nat) : Option Nat :=
  (s.brokers.find? (fun b => b.1 == id)).map (fun b => b.2)

/-- Apply an update `g` to the `value_` cell of the broker node with the given
id, leaving every other node untouched. -/
def updBroker (id : Nat) (g : Nat → Nat) (l : List (Nat × Nat)) : List (Nat × Nat) :=
  l.map (fun b => if b.1 == id then (b.1, g b.2) else b)

/-- Method `counter_broker::operator+=(amount)`: the weak-atomic load/store pair on
the broker's own `value_`. -/
def counter_broker.iadd (w id amt : Nat) (s : CounterState) : CounterState :=
  { s with brokers := updBroker id (fun v => weak_add w v amt) s.brokers }

/-- Method `counter_broker::operator-=(amount)`: the weak-atomic load/store pair on
the broker's own `value_`. -/
def counter_broker.isub (w id amt : Nat) (s : CounterState) : CounterState :=
  { s with brokers := updBroker id (fun v => weak_sub w v amt) s.brokers }

/-- First half of `~counter_broker()`:
`counter_ += value_.load(relaxed)` — a true `fetch_add` into the parent's
residual.  The broker's own `value_` is not reset. -/
def counter_broker.flush (w id : Nat) (s : CounterState) : CounterState :=
  match counter_broker.value s id with
  | some v => { s with counter := wadd w s.counter v }
  | none => s

/-- Second half of `~counter_broker()`: the call `counter_.brokers_.remove(*this)`
under the mutex. -/
def counter_broker.remove (id : Nat) (s : CounterState) : CounterState :=
  { s with brokers := s.brokers.filter (fun b => b.1 != id) }

/-- Destructor `~counter_broker()`: flush into the residual first, then deregister. -/
def counter_broker.dtor (w id : Nat) (s : CounterState) : CounterState :=
  counter_broker.remove id (counter_broker.flush w id s)

/-- State of a `tls_distributed_counter<Integral, Tag>`: just its internal
`distributable_counter global_` (thread-local brokers live in the registry). -/
structure TlsCounterState where
  global : CounterState
deriving Repr, DecidableEq

/-- Method `tls_distributed_counter::load()`: `return global_.load();`. -/
def tls_distributed_counter.load (w : Nat) (t : TlsCounterState) : Nat :=
  distributable_counter.load w t.global

/-- Method `tls_distributed_counter::exchange(to)`:
`Integral exchange(Integral to) { global_.exchange(to); }` — the body invokes
the internal counter's `exchange` for its effect but contains no `return`
statement, so the declared `Integral` result is never produced.  The missing
return value is modelled as `none`. -/
def tls_distributed_counter.exchange (w tov : Nat) (t : TlsCounterState) :
    Option Nat × TlsCounterState :=
  (none, ⟨(distributable_counter.exchange w tov t.global).2⟩)

/-- The ids currently present in the broker registry, in registry order. -/
def registeredIds (s : CounterState) : List Nat := s.brokers.map Prod.fst

/-- Sum (over `Nat`, without wraparound) of all registered brokers' values. -/
def sumVals (l : List (Nat × Nat)) : Nat := (l.map Prod.snd).sum

/-- The mathematically exact (unwrapped) total held by a counter state. -/
def rawTotal (s : CounterState) : Nat := sumVals s.brokers + s.counter

/-- One sequential operation against the counter: an add or subtract through
a broker, or a direct add or subtract on the counter itself. -/
inductive COp where
  | badd (id amt : Nat)
  | bsub (id amt : Nat)
  | cadd (amt : Nat)
  | csub (amt : Nat)
deriving Repr, DecidableEq

/-- Apply one operation to the state. -/
def applyOp (w : Nat) (s : CounterState) : COp → CounterState
  | .badd id amt => counter_broker.iadd w id amt s
  | .bsub id amt => counter_broker.isub w id amt s
  | .cadd amt => distributable_counter.iadd w amt s
  | .csub amt => distributable_counter.isub w amt s

/-- Run a sequence of operations left to right. -/
def runOps (w : Nat) (s : CounterState) : List COp → CounterState
  | [] => s
  | op :: rest => runOps w (applyOp w s op) rest

/-- The signed amount an operation contributes to the algebraic total. -/
def opDelta : COp → Int
  | .badd _ amt => (amt : Int)
  | .bsub _ amt => -(amt : Int)
  | .cadd amt => (amt : Int)
  | .csub amt => -(amt : Int)

/-- Algebraic sum of all amounts applied by a sequence of operations. -/
def netSum (ops : List COp) : Int := (ops.map opDelta).sum

/-- The broker ids an operation acts through (empty for direct counter ops). -/
def opTargets : COp → List Nat
  | .badd id _ => [id]
  | .bsub id _ => [id]
  | .cadd _ => []
  | .csub _ => []

/-! ## Arithmetic lemmas about wrapped operations -/

lemma two_pow_int_pos (w : Nat) : (0 : Int) < (2 : Int) ^ w := by positivity

lemma wadd_lt (w a b : Nat) : wadd w a b < 2 ^ w :=
  Nat.mod_lt _ (Nat.pos_pow_of_pos w (by norm_num))

lemma wadd_modEq (w a b : Nat) :
    ((wadd w a b : Nat) : Int) ≡ (a : Int) + (b : Int) [ZMOD ((2 : Int) ^ w)] := by
  unfold wadd Int.ModEq
  push_cast
  rw [Int.emod_emod_of_dvd _ dvd_rfl]

lemma wsub_modEq (w a b : Nat) :
    ((wsub w a b : Nat) : Int) ≡ (a : Int) - (b : Int) [ZMOD ((2 : Int) ^ w)] := by
  have hle : b % 2 ^ w ≤ 2 ^ w :=
    le_of_lt (Nat.mod_lt _ (Nat.pos_pow_of_pos w (by norm_num)))
  unfold wsub Int.ModEq
  have hcast : (((a + (2 ^ w - b % 2 ^ w)) % 2 ^ w : Nat) : Int) =
      ((a : Int) + ((2 : Int) ^ w - (b : Int) % (2 : Int) ^ w)) % ((2 : Int) ^ w) := by
    push_cast [hle]
    ring_nf
  rw [hcast, Int.emod_emod_of_dvd _ dvd_rfl]
  have h1 : ((a : Int) + ((2 : Int) ^ w - (b : Int) % (2 : Int) ^ w)) ≡
      (a : Int) - (b : Int) [ZMOD ((2 : Int) ^ w)] := by
    rw [Int.modEq_iff_dvd]
    exact ⟨-(1 + (b : Int) / (2 : Int) ^ w), by rw [Int.emod_def]; ring⟩
  exact h1

lemma eq_emod_of_lt_of_modEq {w x : Nat} {y : Int} (hx : x < 2 ^ w)
    (h : (x : Int) ≡ y [ZMOD ((2 : Int) ^ w)]) :
    (x : Int) = y % ((2 : Int) ^ w) := by
  have hxlt : (x : Int) < (2 : Int) ^ w := by exact_mod_cast hx
  calc (x : Int) = (x : Int) % ((2 : Int) ^ w) :=
        (Int.emod_eq_of_lt (Int.natCast_nonneg x) hxlt).symm
    _ = y % ((2 : Int) ^ w) := h

/-! ## Structural lemmas about load and exchange -/

lemma loadScan_snd (w : Nat) (l : List (Nat × Nat)) (acc : Nat) :
    (loadScan w l acc).2 = l := by
  induction l generalizing acc with
  | nil => rfl
  | cons b bs ih => simp [loadScan, ih]

lemma loadScan_fst_mod (w : Nat) (l : List (Nat × Nat)) (acc : Nat) :
    (loadScan w l acc).1 % 2 ^ w = (acc + sumVals l) % 2 ^ w := by
  induction l generalizing acc with
  | nil => simp [loadScan, sumVals]
  | cons b bs ih =>
    simp only [loadScan]
    rw [ih]
    unfold wadd
    rw [Nat.mod_add_mod]
    simp [sumVals]
    ring_nf

lemma load_eq_rawTotal_mod (w : Nat) (s : CounterState) :
    distributable_counter.load w s = rawTotal s % 2 ^ w := by
  unfold distributable_counter.load distributable_counter.loadSt wadd rawTotal
  simp only
  rw [← Nat.mod_add_mod, loadScan_fst_mod, Nat.mod_add_mod, Nat.zero_add]

lemma load_lt (w : Nat) (s : CounterState) :
    distributable_counter.load w s < 2 ^ w := by
  rw [load_eq_rawTotal_mod]
  exact Nat.mod_lt _ (Nat.pos_pow_of_pos w (by norm_num))

lemma exchScan_fst (w : Nat) (l : List (Nat × Nat)) (acc : Nat) :
    (exchScan w l acc).1 = (loadScan w l acc).1 := by
  induction l generalizing acc with
  | nil => rfl
  | cons b bs ih => simp [exchScan, loadScan, ih]

lemma exchScan_snd (w : Nat) (l : List (Nat × Nat)) (acc : Nat) :
    (exchScan w l acc).2 = l.map (fun b => (b.1, 0)) := by
  induction l generalizing acc with
  | nil => rfl
  | cons b bs ih => simp [exchScan, ih]

/-! ## Lemmas about broker updates -/

lemma sumVals_cons (b : Nat × Nat) (l : List (Nat × Nat)) :
    sumVals (b :: l) = b.2 + sumVals l := by
  simp [sumVals]

lemma updBroker_fst (id : Nat) (g : Nat → Nat) (l : List (Nat × Nat)) :
    (updBroker id g l).map Prod.fst = l.map Prod.fst := by
  unfold updBroker
  rw [List.map_map]
  apply List.map_congr_left
  intro b _
  by_cases hb : b.1 = id <;> simp [hb]

lemma updBroker_not_mem (id : Nat) (g : Nat → Nat) (l : List (Nat × Nat))
    (h : id ∉ l.map Prod.fst) : updBroker id g l = l := by
  induction l with
  | nil => rfl
  | cons b bs ih =>
    simp only [List.map_cons, List.mem_cons] at h
    push_neg at h
    have hb : ¬ (b.1 = id) := fun he => h.1 he.symm
    have htail := ih h.2
    unfold updBroker at htail ⊢
    simp only [List.map_cons]
    simp [hb] at htail ⊢
    exact htail

lemma sumVals_updBroker (w id : Nat) (g : Nat → Nat) (d : Int) (l : List (Nat × Nat))
    (hg : ∀ v : Nat, ((g v : Nat) : Int) ≡ (v : Int) + d [ZMOD ((2 : Int) ^ w)])
    (hnd : (l.map Prod.fst).Nodup) (hmem : id ∈ l.map Prod.fst) :
    ((sumVals (updBroker id g l) : Nat) : Int) ≡
      (sumVals l : Int) + d [ZMOD ((2 : Int) ^ w)] := by
  induction l with
  | nil => simp at hmem
  | cons b bs ih =>
    rw [List.map_cons, List.nodup_cons] at hnd
    by_cases hb : b.1 = id
    · have hnotin : id ∉ bs.map Prod.fst := hb ▸ hnd.1
      have hrest := updBroker_not_mem id g bs hnotin
      have hstep : updBroker id g (b :: bs) = (b.1, g b.2) :: bs := by
        unfold updBroker at hrest ⊢
        simp only [List.map_cons]
        rw [hrest]
        simp [hb]
      rw [hstep, sumVals_cons, sumVals_cons]
      push_cast
      have h1 := (hg b.2).add_right (sumVals bs : Int)
      calc ((g b.2 : Nat) : Int) + (sumVals bs : Int) ≡
            ((b.2 : Int) + d) + (sumVals bs : Int) [ZMOD ((2 : Int) ^ w)] := h1
        _ = (b.2 : Int) + (sumVals bs : Int) + d := by ring
    · have hmem2 : id ∈ bs.map Prod.fst := by
        rw [List.map_cons] at hmem
        rcases List.mem_cons.mp hmem with h | h
        · exact absurd h.symm hb
        · exact h
      have hstep : updBroker id g (b :: bs) = b :: updBroker id g bs := by
        unfold updBroker
        simp only [List.map_cons]
        simp [hb]
      rw [hstep, sumVals_cons, sumVals_cons]
      have hih := ih hnd.2 hmem2
      push_cast at hih ⊢
      calc (b.2 : Int) + ((sumVals (updBroker id g bs) : Nat) : Int) ≡
            (b.2 : Int) + ((sumVals bs : Int) + d) [ZMOD ((2 : Int) ^ w)] :=
              hih.add_left _
        _ = (b.2 : Int) + (sumVals bs : Int) + d := by ring

lemma weak_add_modEq (w v amt : Nat) :
    ((weak_add w v amt : Nat) : Int) ≡ (v : Int) + (amt : Int) [ZMOD ((2 : Int) ^ w)] :=
  wadd_modEq w v amt

lemma weak_sub_modEq (w v amt : Nat) :
    ((weak_sub w v amt : Nat) : Int) ≡ (v : Int) + -(amt : Int) [ZMOD ((2 : Int) ^ w)] := by
  have := wsub_modEq w v amt
  simpa [sub_eq_add_neg] using this

lemma registeredIds_applyOp (w : Nat) (s : CounterState) (op : COp) :
    registeredIds (applyOp w s op) = registeredIds s := by
  cases op <;>
    simp [applyOp, counter_broker.iadd, counter_broker.isub,
      distributable_counter.iadd, distributable_counter.isub, registeredIds,
      updBroker_fst]

lemma rawTotal_applyOp (w : Nat) (s : CounterState) (op : COp)
    (hnd : (registeredIds s).Nodup)
    (hops : ∀ id ∈ opTargets op, id ∈ registeredIds s) :
    ((rawTotal (applyOp w s op) : Nat) : Int) ≡
      (rawTotal s : Int) + opDelta op [ZMOD ((2 : Int) ^ w)] := by
  cases op with
  | badd id amt =>
    have hmem : id ∈ s.brokers.map Prod.fst := hops id (by simp [opTargets])
    have h := sumVals_updBroker w id (fun v => weak_add w v amt) (amt : Int)
      s.brokers (fun v => weak_add_modEq w v amt) hnd hmem
    simp only [applyOp, counter_broker.iadd, rawTotal, opDelta]
    push_cast at h ⊢
    calc (sumVals (updBroker id (fun v => weak_add w v amt) s.brokers) : Int) + (s.counter : Int) ≡
          ((sumVals s.brokers : Int) + (amt : Int)) + (s.counter : Int)
            [ZMOD ((2 : Int) ^ w)] := h.add_right _
      _ = (sumVals s.brokers : Int) + (s.counter : Int) + (amt : Int) := by ring
  | bsub id amt =>
    have hmem : id ∈ s.brokers.map Prod.fst := hops id (by simp [opTargets])
    have h := sumVals_updBroker w id (fun v => weak_sub w v amt) (-(amt : Int))
      s.brokers (fun v => weak_sub_modEq w v amt) hnd hmem
    simp only [applyOp, counter_broker.isub, rawTotal, opDelta]
    push_cast at h ⊢
    calc (sumVals (updBroker id (fun v => weak_sub w v amt) s.brokers) : Int) + (s.counter : Int) ≡
          ((sumVals s.brokers : Int) + -(amt : Int)) + (s.counter : Int)
            [ZMOD ((2 : Int) ^ w)] := h.add_right _
      _ = (sumVals s.brokers : Int) + (s.counter : Int) + -(amt : Int) := by ring
  | cadd amt =>
    simp only [applyOp, distributable_counter.iadd, rawTotal, opDelta]
    push_cast
    calc (sumVals s.brokers : Int) + ((wadd w s.counter amt : Nat) : Int) ≡
          (sumVals s.brokers : Int) + ((s.counter : Int) + (amt : Int))
            [ZMOD ((2 : Int) ^ w)] := (wadd_modEq w s.counter amt).add_left _
      _ = (sumVals s.brokers : Int) + (s.counter : Int) + (amt : Int) := by ring
  | csub amt =>
    simp only [applyOp, distributable_counter.isub, rawTotal, opDelta]
    push_cast
    calc (sumVals s.brokers : Int) + ((wsub w s.counter amt : Nat) : Int) ≡
          (sumVals s.brokers : Int) + ((s.counter : Int) - (amt : Int))
            [ZMOD ((2 : Int) ^ w)] := (wsub_modEq w s.counter amt).add_left _
      _ = (sumVals s.brokers : Int) + (s.counter : Int) + -(amt : Int) := by ring

lemma netSum_cons (op : COp) (rest : List COp) :
    netSum (op :: rest) = opDelta op + netSum rest := by
  simp [netSum]

lemma rawTotal_runOps (w : Nat) (ops : List COp) (s : CounterState)
    (hnd : (registeredIds s).Nodup)
    (hops : ∀ op ∈ ops, ∀ id ∈ opTargets op, id ∈ registeredIds s) :
    ((rawTotal (runOps w s ops) : Nat) : Int) ≡
      (rawTotal s : Int) + netSum ops [ZMOD ((2 : Int) ^ w)] := by
  induction ops generalizing s with
  | nil =>
    simp only [runOps, netSum, List.map_nil, List.sum_nil, add_zero]
    exact Int.ModEq.refl _
  | cons op rest ih =>
    have h1 := rawTotal_applyOp w s op hnd (hops op (List.mem_cons_self op rest))
    have hnd2 : (registeredIds (applyOp w s op)).Nodup := by
      rw [registeredIds_applyOp]; exact hnd
    have hops2 : ∀ op2 ∈ rest, ∀ id ∈ opTargets op2, id ∈ registeredIds (applyOp w s op) := by
      intro op2 hmem id hid
      rw [registeredIds_applyOp]
      exact hops op2 (List.mem_cons_of_mem op hmem) id hid
    have h2 := ih (applyOp w s op) hnd2 hops2
    calc ((rawTotal (runOps w (applyOp w s op) rest) : Nat) : Int) ≡
          (rawTotal (applyOp w s op) : Int) + netSum rest [ZMOD ((2 : Int) ^ w)] := h2
      _ ≡ ((rawTotal s : Int) + opDelta op) + netSum rest [ZMOD ((2 : Int) ^ w)] :=
            h1.add_right _
      _ = (rawTotal s : Int) + netSum (op :: rest) := by rw [netSum_cons]; ring

lemma load_modEq_rawTotal (w : Nat) (s : CounterState) :
    ((distributable_counter.load w s : Nat) : Int) ≡
      (rawTotal s : Int) [ZMOD ((2 : Int) ^ w)] := by
  rw [load_eq_rawTotal_mod]
  unfold Int.ModEq
  push_cast
  rw [Int.emod_emod_of_dvd _ dvd_rfl]

/-! ## More structural lemmas -/

lemma wsub_lt (w a b : Nat) : wsub w a b < 2 ^ w :=
  Nat.mod_lt _ (Nat.pos_pow_of_pos w (by norm_num))

lemma sumVals_zeroed (l : List (Nat × Nat)) :
    sumVals (l.map (fun b => (b.1, 0))) = 0 := by
  unfold sumVals
  rw [List.map_map]
  apply List.sum_eq_zero
  intro x hx
  rcases List.mem_map.mp hx with ⟨a, _, rfl⟩
  rfl

lemma sumVals_pairs_zero (l : List Nat) :
    sumVals (l.map (fun i => (i, 0))) = 0 := by
  unfold sumVals
  rw [List.map_map]
  apply List.sum_eq_zero
  intro x hx
  rcases List.mem_map.mp hx with ⟨a, _, rfl⟩
  rfl

lemma flush_brokers (w id : Nat) (s : CounterState) :
    (counter_broker.flush w id s).brokers = s.brokers := by
  unfold counter_broker.flush
  cases hv : counter_broker.value s id <;> rfl

lemma find?_updBroker (idA idB : Nat) (g : Nat → Nat) (l : List (Nat × Nat))
    (hne : idA ≠ idB) :
    (updBroker idA g l).find? (fun b => b.1 == idB) =
      l.find? (fun b => b.1 == idB) := by
  induction l with
  | nil => rfl
  | cons b bs ih =>
    unfold updBroker at ih ⊢
    simp only [List.map_cons]
    by_cases hA : b.1 = idA
    · have hB : ¬ (b.1 = idB) := fun h => hne (hA ▸ h)
      have hhead : (if (b.1 == idA) then (b.1, g b.2) else b) = (b.1, g b.2) := by
        simp [hA]
      rw [hhead, List.find?_cons_of_neg _ (by simp [hB]),
        List.find?_cons_of_neg _ (by simp [hB])]
      exact ih
    · have hhead : (if (b.1 == idA) then (b.1, g b.2) else b) = b := by
        simp [hA]
      rw [hhead]
      by_cases hB : b.1 = idB
      · rw [List.find?_cons_of_pos _ (by simp [hB]),
          List.find?_cons_of_pos _ (by simp [hB])]
      · rw [List.find?_cons_of_neg _ (by simp [hB]),
          List.find?_cons_of_neg _ (by simp [hB])]
        exact ih

lemma find?_filter_ne (idA idB : Nat) (l : List (Nat × Nat)) (hne : idA ≠ idB) :
    (l.filter (fun b => b.1 != idA)).find? (fun b => b.1 == idB) =
      l.find? (fun b => b.1 == idB) := by
  induction l with
  | nil => rfl
  | cons b bs ih =>
    by_cases hA : b.1 = idA
    · have hB : ¬ (b.1 = idB) := fun h => hne (hA ▸ h)
      have hfilt : (b :: bs).filter (fun b => b.1 != idA) =
          bs.filter (fun b => b.1 != idA) := by
        simp [List.filter_cons, hA]
      rw [hfilt, ih, List.find?_cons_of_neg _ (by simp [hB])]
    · have hfilt : (b :: bs).filter (fun b => b.1 != idA) =
          b :: bs.filter (fun b => b.1 != idA) := by
        simp [List.filter_cons, hA]
      rw [hfilt]
      by_cases hB : b.1 = idB
      · rw [List.find?_cons_of_pos _ (by simp [hB]),
          List.find?_cons_of_pos _ (by simp [hB])]
      · rw [List.find?_cons_of_neg _ (by simp [hB]),
          List.find?_cons_of_neg _ (by simp [hB])]
        exact ih

lemma find?_append_right {α : Type} (p : α → Bool) (l l2 : List α)
    (h : ∀ b ∈ l, p b = false) : (l ++ l2).find? p = l2.find? p := by
  induction l with
  | nil => rfl
  | cons b bs ih =>
    rw [List.cons_append,
      List.find?_cons_of_neg _ (by simp [h b (List.mem_cons_self b bs)])]
    exact ih (fun b2 hb2 => h b2 (List.mem_cons_of_mem b hb2))

/-- Construct `n` brokers bound to the counter, one after the other
(`counter_broker` constructor calls with ids `0, …, n-1`). -/
def withBrokers (n : Nat) (s : CounterState) : CounterState :=
  (List.range n).foldl (fun t i => counter_broker.ctor i t) s

lemma withBrokers_eq (n : Nat) (s : CounterState) :
    withBrokers n s =
      { counter := s.counter,
        brokers := s.brokers ++ (List.range n).map (fun i => (i, 0)) } := by
  induction n with
  | zero => simp [withBrokers]
  | succ n ih =>
    unfold withBrokers at ih ⊢
    rw [List.range_succ, List.foldl_append, ih]
    simp [counter_broker.ctor, List.range_succ]

lemma registeredIds_withBrokers_init (w n : Nat) :
    registeredIds (withBrokers n (distributable_counter.init w 0)) = List.range n := by
  rw [withBrokers_eq]
  unfold registeredIds distributable_counter.init
  simp only [List.nil_append, List.map_map]
  have hcomp : (Prod.fst ∘ fun i : Nat => (i, 0)) = fun i : Nat => i := rfl
  rw [hcomp, List.map_id']

lemma load_withBrokers_init (w n : Nat) :
    distributable_counter.load w (withBrokers n (distributable_counter.init w 0)) = 0 := by
  rw [load_eq_rawTotal_mod, withBrokers_eq]
  unfold rawTotal distributable_counter.init wrap
  simp only [List.nil_append]
  rw [sumVals_pairs_zero]
  simp

lemma load_runOps_netSum (w : Nat) (s : CounterState) (ops : List COp)
    (hnd : (registeredIds s).Nodup)
    (hops : ∀ op ∈ ops, ∀ id ∈ opTargets op, id ∈ registeredIds s) :
    ((distributable_counter.load w (runOps w s ops) : Nat) : Int) =
      ((distributable_counter.load w s : Int) + netSum ops) % ((2 : Int) ^ w) := by
  refine eq_emod_of_lt_of_modEq (load_lt w _) ?_
  calc ((distributable_counter.load w (runOps w s ops) : Nat) : Int) ≡
        (rawTotal (runOps w s ops) : Int) [ZMOD ((2 : Int) ^ w)] :=
          load_modEq_rawTotal w _
    _ ≡ (rawTotal s : Int) + netSum ops [ZMOD ((2 : Int) ^ w)] :=
          rawTotal_runOps w ops s hnd hops
    _ ≡ (distributable_counter.load w s : Int) + netSum ops [ZMOD ((2 : Int) ^ w)] :=
          Int.ModEq.add_right _ (load_modEq_rawTotal w s).symm

/-! ## Claim theorems -/

/-- Claim C1: for any sequence of add/subtract calls issued sequentially
through `n` independent brokers bound to the same freshly constructed
`distributable_counter`, together with any direct add/subtract calls on the
counter itself, with no exchange call and no broker destruction interleaved,
a subsequent `load()` returns the algebraic sum of all amounts applied across
all brokers plus all direct counter operations, modulo `2^w` wraparound. -/
theorem load_sums_all_brokers_and_direct_ops (w n : Nat) (ops : List COp)
    (hops : ∀ op ∈ ops, ∀ id ∈ opTargets op, id < n) :
    ((distributable_counter.load w
        (runOps w (withBrokers n (distributable_counter.init w 0)) ops) : Nat) : Int) =
      netSum ops % ((2 : Int) ^ w) := by
  have hnd : (registeredIds (withBrokers n (distributable_counter.init w 0))).Nodup := by
    rw [registeredIds_withBrokers_init]
    exact List.nodup_range n
  have hops2 : ∀ op ∈ ops, ∀ id ∈ opTargets op,
      id ∈ registeredIds (withBrokers n (distributable_counter.init w 0)) := by
    intro op hop id hid
    rw [registeredIds_withBrokers_init]
    exact List.mem_range.mpr (hops op hop id hid)
  have h := load_runOps_netSum w (withBrokers n (distributable_counter.init w 0)) ops
    hnd hops2
  rw [load_withBrokers_init] at h
  simpa using h

/-- Witness for claim C1: two brokers, broker 0 adds 5, broker 1 adds 10, a
direct add of 3, then broker 0 subtracts 2; the subsequent load is 16. -/
theorem load_sums_all_brokers_and_direct_ops_witness :
    (∀ op ∈ [COp.badd 0 5, COp.badd 1 10, COp.cadd 3, COp.bsub 0 2],
      ∀ id ∈ opTargets op, id < 2) ∧
    ((distributable_counter.load 8
        (runOps 8 (withBrokers 2 (distributable_counter.init 8 0))
          [COp.badd 0 5, COp.badd 1 10, COp.cadd 3, COp.bsub 0 2]) : Nat) : Int) =
      netSum [COp.badd 0 5, COp.badd 1 10, COp.cadd 3, COp.bsub 0 2] % ((2 : Int) ^ 8) :=
  ⟨by decide, load_sums_all_brokers_and_direct_ops 8 2 _ (by decide)⟩

/-- Claim C2: `exchange(X)` returns the counter's total value at the moment of
the call (which equals what `load()` would return: the sum of every registered
broker's value plus the old residual), drains every broker to zero, and an
immediately following `load()` with no intervening writes returns exactly `X`. -/
theorem exchange_returns_total_and_resets (w tov : Nat) (s : CounterState)
    (htov : tov < 2 ^ w) :
    (distributable_counter.exchange w tov s).1 = distributable_counter.load w s ∧
    (∀ b ∈ (distributable_counter.exchange w tov s).2.brokers, b.2 = 0) ∧
    distributable_counter.load w (distributable_counter.exchange w tov s).2 = tov := by
  refine ⟨?_, ?_, ?_⟩
  · unfold distributable_counter.exchange distributable_counter.load
      distributable_counter.loadSt
    simp only
    rw [exchScan_fst]
  · intro b hb
    unfold distributable_counter.exchange at hb
    simp only at hb
    rw [exchScan_snd] at hb
    rcases List.mem_map.mp hb with ⟨a, _, rfl⟩
    rfl
  · unfold distributable_counter.exchange
    simp only
    rw [load_eq_rawTotal_mod]
    unfold rawTotal
    simp only
    rw [exchScan_snd, sumVals_zeroed]
    unfold wrap
    rw [Nat.zero_add, Nat.mod_mod_of_dvd _ dvd_rfl, Nat.mod_eq_of_lt htov]

/-- Witness for claim C2: residual 3, brokers holding 5 and 10;
`exchange(100)` returns 18 and the following load returns 100. -/
theorem exchange_returns_total_and_resets_witness :
    100 < 2 ^ 8 ∧
    ((distributable_counter.exchange 8 100
        { counter := 3, brokers := [(0, 5), (1, 10)] }).1 =
      distributable_counter.load 8 { counter := 3, brokers := [(0, 5), (1, 10)] } ∧
    (∀ b ∈ (distributable_counter.exchange 8 100
        { counter := 3, brokers := [(0, 5), (1, 10)] }).2.brokers, b.2 = 0) ∧
    distributable_counter.load 8 (distributable_counter.exchange 8 100
        { counter := 3, brokers := [(0, 5), (1, 10)] }).2 = 100) :=
  ⟨by decide, exchange_returns_total_and_resets 8 100 _ (by decide)⟩

/-- Claim C3 (refuted, code bug): `tls_distributed_counter::exchange` is
declared to return `Integral` and the spec says it delegates to the internal
counter's `exchange`, result included; but its body
`{ global_.exchange(to); }` has no return statement, so the internal result
(here 8 = 5 residual + 3 broker) is computed and discarded, and the wrapper
produces no value at all. -/
theorem tls_exchange_drops_result :
    (tls_distributed_counter.exchange 8 100 ⟨{ counter := 5, brokers := [(0, 3)] }⟩).1 =
      none ∧
    (distributable_counter.exchange 8 100 { counter := 5, brokers := [(0, 3)] }).1 = 8 ∧
    (tls_distributed_counter.exchange 8 100 ⟨{ counter := 5, brokers := [(0, 3)] }⟩).1 ≠
      some (distributable_counter.exchange 8 100 { counter := 5, brokers := [(0, 3)] }).1 :=
  ⟨rfl, by decide, by decide⟩

/-- The value `exchange` returns is exactly the value `load` would return on
the same state (both fold the broker values and the residual the same way). -/
lemma exchange_fst_eq_load (w tov : Nat) (s : CounterState) :
    (distributable_counter.exchange w tov s).1 = distributable_counter.load w s := by
  unfold distributable_counter.exchange distributable_counter.load
    distributable_counter.loadSt
  simp only
  rw [exchScan_fst]

/-- Claim C4: the broker destructor first flushes `value_` into the parent's
residual via an atomic fetch-add and only afterwards removes the broker from
the registry, without resetting the broker's value between the two steps;
a `load()` — or an `exchange()`, whose returned total is computed the same
way — executed between the flush and the removal therefore returns a total
that counts the broker's value twice: once via the residual and once via the
still-registered broker. -/
theorem broker_dtor_window_double_counts (w id v : Nat) (s : CounterState)
    (hv : counter_broker.value s id = some v) :
    counter_broker.value (counter_broker.flush w id s) id = some v ∧
    counter_broker.dtor w id s = counter_broker.remove id (counter_broker.flush w id s) ∧
    ((distributable_counter.load w (counter_broker.flush w id s) : Nat) : Int) =
      ((distributable_counter.load w s : Int) + (v : Int)) % ((2 : Int) ^ w) ∧
    ∀ tov : Nat,
      (((distributable_counter.exchange w tov (counter_broker.flush w id s)).1 : Nat) : Int) =
        ((distributable_counter.load w s : Int) + (v : Int)) % ((2 : Int) ^ w) := by
  have hflush : counter_broker.flush w id s =
      { s with counter := wadd w s.counter v } := by
    unfold counter_broker.flush
    rw [hv]
  have hload : ((distributable_counter.load w (counter_broker.flush w id s) : Nat) : Int) =
      ((distributable_counter.load w s : Int) + (v : Int)) % ((2 : Int) ^ w) := by
    rw [hflush]
    refine eq_emod_of_lt_of_modEq (load_lt w _) ?_
    calc ((distributable_counter.load w { s with counter := wadd w s.counter v } : Nat) : Int) ≡
          (rawTotal { s with counter := wadd w s.counter v } : Int)
            [ZMOD ((2 : Int) ^ w)] := load_modEq_rawTotal w _
      _ ≡ (rawTotal s : Int) + (v : Int) [ZMOD ((2 : Int) ^ w)] := by
          unfold rawTotal
          simp only
          push_cast
          calc (sumVals s.brokers : Int) + ((wadd w s.counter v : Nat) : Int) ≡
                (sumVals s.brokers : Int) + ((s.counter : Int) + (v : Int))
                  [ZMOD ((2 : Int) ^ w)] := (wadd_modEq w s.counter v).add_left _
            _ = (sumVals s.brokers : Int) + (s.counter : Int) + (v : Int) := by ring
      _ ≡ (distributable_counter.load w s : Int) + (v : Int) [ZMOD ((2 : Int) ^ w)] :=
            Int.ModEq.add_right _ (load_modEq_rawTotal w s).symm
  refine ⟨?_, rfl, hload, ?_⟩
  · rw [hflush]
    exact hv
  · intro tov
    rw [exchange_fst_eq_load]
    exact hload

/-- Witness for claim C4: residual 3, broker 0 holding 5; a load in the
destructor window returns (8 + 5) mod 256 = 13, counting the 5 twice, and an
exchange(100) in the same window also returns 13. -/
theorem broker_dtor_window_double_counts_witness :
    counter_broker.value { counter := 3, brokers := [(0, 5)] } 0 = some 5 ∧
    (counter_broker.value
        (counter_broker.flush 8 0 { counter := 3, brokers := [(0, 5)] }) 0 = some 5 ∧
    counter_broker.dtor 8 0 { counter := 3, brokers := [(0, 5)] } =
      counter_broker.remove 0
        (counter_broker.flush 8 0 { counter := 3, brokers := [(0, 5)] }) ∧
    ((distributable_counter.load 8
        (counter_broker.flush 8 0 { counter := 3, brokers := [(0, 5)] }) : Nat) : Int) =
      ((distributable_counter.load 8 { counter := 3, brokers := [(0, 5)] } : Int) +
        ((5 : Nat) : Int)) % ((2 : Int) ^ 8) ∧
    (((distributable_counter.exchange 8 100
        (counter_broker.flush 8 0 { counter := 3, brokers := [(0, 5)] })).1 : Nat) : Int) =
      ((distributable_counter.load 8 { counter := 3, brokers := [(0, 5)] } : Int) +
        ((5 : Nat) : Int)) % ((2 : Int) ^ 8)) :=
  ⟨by decide,
    (broker_dtor_window_double_counts 8 0 5 _ (by decide)).1,
    (broker_dtor_window_double_counts 8 0 5 _ (by decide)).2.1,
    (broker_dtor_window_double_counts 8 0 5 _ (by decide)).2.2.1,
    (broker_dtor_window_double_counts 8 0 5 _ (by decide)).2.2.2 100⟩

/-- Claim C5: `load()` is observe-only: it leaves every registered broker's
value and the residual exactly as they were, and two consecutive loads with
no interleaved writes return equal values. -/
theorem load_is_observe_only (w : Nat) (s : CounterState) :
    (distributable_counter.loadSt w s).2 = s ∧
    (distributable_counter.loadSt w (distributable_counter.loadSt w s).2).1 =
      (distributable_counter.loadSt w s).1 := by
  have h2 : (distributable_counter.loadSt w s).2 = s := by
    unfold distributable_counter.loadSt
    simp only [loadScan_snd]
  exact ⟨h2, by rw [h2]⟩

/-- Claim C6: the counter destructor's assertion holds iff the broker
registry is empty, so destroying a counter while a constructed broker is
still registered is a trapped fatal misuse, never a silent success. -/
theorem counter_dtor_requires_empty_registry (s : CounterState) (id : Nat) :
    (distributable_counter.dtor s = some () ↔ s.brokers = []) ∧
    distributable_counter.dtor (counter_broker.ctor id s) = none := by
  constructor
  · by_cases he : s.brokers = [] <;> simp [distributable_counter.dtor, he]
  · unfold counter_broker.ctor distributable_counter.dtor
    simp

/-- Claim C7: the broker's add/subtract — a separate atomic load of `value_`
followed by a separate atomic store of the updated value — computes, when
executed sequentially with no interleaving, exactly the result of a single
atomic fetch-add / fetch-sub: `value' = value ± amount` modulo `2^w`. -/
theorem weak_update_equals_fetch_update (w v amt : Nat) :
    weak_add w v amt = fetch_add_model w v amt ∧
    weak_sub w v amt = fetch_sub_model w v amt := by
  constructor
  · have h := eq_emod_of_lt_of_modEq (wadd_lt w v amt) (wadd_modEq w v amt)
    unfold fetch_add_model
    rw [← h]
    simp [weak_add, atomic_load]
  · have h := eq_emod_of_lt_of_modEq (wsub_lt w v amt) (wsub_modEq w v amt)
    unfold fetch_sub_model
    rw [← h]
    simp [weak_sub, atomic_load]

/-- Claim C8: two brokers bound to the same counter never affect each other:
add/subtract through one broker, and the destruction (flush plus
deregistration) of one broker, leave the other broker's accumulated value
unchanged. -/
theorem brokers_are_independent (w idA idB amt : Nat) (s : CounterState)
    (hne : idA ≠ idB) :
    counter_broker.value (counter_broker.iadd w idA amt s) idB =
      counter_broker.value s idB ∧
    counter_broker.value (counter_broker.isub w idA amt s) idB =
      counter_broker.value s idB ∧
    counter_broker.value (counter_broker.dtor w idA s) idB =
      counter_broker.value s idB := by
  refine ⟨?_, ?_, ?_⟩
  · unfold counter_broker.value counter_broker.iadd
    simp only
    rw [find?_updBroker idA idB _ s.brokers hne]
  · unfold counter_broker.value counter_broker.isub
    simp only
    rw [find?_updBroker idA idB _ s.brokers hne]
  · unfold counter_broker.dtor counter_broker.remove counter_broker.value
    simp only [flush_brokers]
    rw [find?_filter_ne idA idB s.brokers hne]

/-- Witness for claim C8: brokers 0 and 1 hold 2 and 7; adding through,
subtracting through, and destroying broker 0 leaves broker 1 at 7. -/
theorem brokers_are_independent_witness :
    (0 : Nat) ≠ 1 ∧
    (counter_broker.value
        (counter_broker.iadd 8 0 5 { counter := 0, brokers := [(0, 2), (1, 7)] }) 1 =
      counter_broker.value { counter := 0, brokers := [(0, 2), (1, 7)] } 1 ∧
    counter_broker.value
        (counter_broker.isub 8 0 5 { counter := 0, brokers := [(0, 2), (1, 7)] }) 1 =
      counter_broker.value { counter := 0, brokers := [(0, 2), (1, 7)] } 1 ∧
    counter_broker.value
        (counter_broker.dtor 8 0 { counter := 0, brokers := [(0, 2), (1, 7)] }) 1 =
      counter_broker.value { counter := 0, brokers := [(0, 2), (1, 7)] } 1) :=
  ⟨by decide, brokers_are_independent 8 0 1 5 _ (by decide)⟩

/-- Claim C9: the counter's direct add/subtract have no error conditions: for
every residual and amount the residual becomes (residual ± amount) mod 2^w,
with standard modular wraparound, and the broker registry is untouched. -/
theorem direct_ops_wrap_and_never_fail (w amt : Nat) (s : CounterState) :
    ((distributable_counter.iadd w amt s).counter : Int) =
      ((s.counter : Int) + (amt : Int)) % ((2 : Int) ^ w) ∧
    ((distributable_counter.isub w amt s).counter : Int) =
      ((s.counter : Int) - (amt : Int)) % ((2 : Int) ^ w) ∧
    (distributable_counter.iadd w amt s).brokers = s.brokers ∧
    (distributable_counter.isub w amt s).brokers = s.brokers := by
  refine ⟨?_, ?_, rfl, rfl⟩
  · exact eq_emod_of_lt_of_modEq (wadd_lt w s.counter amt) (wadd_modEq w s.counter amt)
  · exact eq_emod_of_lt_of_modEq (wsub_lt w s.counter amt) (wsub_modEq w s.counter amt)

/-- Claim C10: a newly constructed broker has value 0, so constructing a
broker and destroying it with no add/subtract in between is an identity on
the counter's observable state: the state (hence `load()` and the registry
membership) returns exactly to what it was. -/
theorem fresh_broker_ctor_dtor_identity (w id : Nat) (s : CounterState)
    (hc : s.counter < 2 ^ w) (hid : id ∉ registeredIds s) :
    counter_broker.value (counter_broker.ctor id s) id = some 0 ∧
    counter_broker.dtor w id (counter_broker.ctor id s) = s ∧
    distributable_counter.load w (counter_broker.dtor w id (counter_broker.ctor id s)) =
      distributable_counter.load w s := by
  have hnotid : ∀ b ∈ s.brokers, (b.1 == id) = false := by
    intro b hb
    simp only [beq_eq_false_iff_ne]
    intro he
    exact hid (he ▸ List.mem_map_of_mem Prod.fst hb)
  have hval : counter_broker.value (counter_broker.ctor id s) id = some 0 := by
    unfold counter_broker.value counter_broker.ctor
    simp only
    rw [find?_append_right _ s.brokers [(id, 0)] hnotid,
      List.find?_cons_of_pos _ (by simp)]
    rfl
  have hdtor : counter_broker.dtor w id (counter_broker.ctor id s) = s := by
    unfold counter_broker.dtor
    have hflush : counter_broker.flush w id (counter_broker.ctor id s) =
        counter_broker.ctor id s := by
      unfold counter_broker.flush
      rw [hval]
      show (⟨wadd w (counter_broker.ctor id s).counter 0,
        (counter_broker.ctor id s).brokers⟩ : CounterState) =
        counter_broker.ctor id s
      have hw : wadd w (counter_broker.ctor id s).counter 0 =
          (counter_broker.ctor id s).counter := by
        unfold wadd counter_broker.ctor
        simp only
        rw [Nat.add_zero, Nat.mod_eq_of_lt hc]
      rw [hw]
    rw [hflush]
    unfold counter_broker.remove counter_broker.ctor
    simp only
    rw [List.filter_append]
    have h1 : s.brokers.filter (fun b => b.1 != id) = s.brokers := by
      rw [List.filter_eq_self]
      intro b hb
      simp only [bne_iff_ne]
      intro he
      exact hid (he ▸ List.mem_map_of_mem Prod.fst hb)
    have h2 : List.filter (fun b => b.1 != id) [(id, 0)] = [] := by simp
    rw [h1, h2, List.append_nil]
  exact ⟨hval, hdtor, by rw [hdtor]⟩

/-- Witness for claim C10: counter residual 3 with broker 0 holding 2;
constructing then destroying broker 1 restores the state exactly. -/
theorem fresh_broker_ctor_dtor_identity_witness :
    (3 : Nat) < 2 ^ 4 ∧
    1 ∉ registeredIds { counter := 3, brokers := [(0, 2)] } ∧
    (counter_broker.value
        (counter_broker.ctor 1 { counter := 3, brokers := [(0, 2)] }) 1 = some 0 ∧
    counter_broker.dtor 4 1 (counter_broker.ctor 1 { counter := 3, brokers := [(0, 2)] }) =
      { counter := 3, brokers := [(0, 2)] } ∧
    distributable_counter.load 4
        (counter_broker.dtor 4 1 (counter_broker.ctor 1 { counter := 3, brokers := [(0, 2)] })) =
      distributable_counter.load 4 { counter := 3, brokers := [(0, 2)] }) :=
  ⟨by decide, by decide, fresh_broker_ctor_dtor_identity 4 1 _ (by decide) (by decide)⟩
